import Mathlib

/-!
# Task / subtask organizer (`tugas.cpp`)

A shallow embedding of the in-memory registry of `tugas.cpp`: the `Subtask` and
`Task` records, the `TaskManager` that owns the task vector and the adjacency
list (the relation index), the operations on them, the menu options of `main`
that change the registry, and the `Task::edit` of `tempCodeRunnerFile.cpp`.

Modelling conventions.

* `std::vector<std::unique_ptr<T>>` is a `List T` in insertion order; an
  iterator is a position (`Nat`), `end()` is the length.
* `std::unordered_map<std::string, std::vector<std::string>>` is a function
  `String → Option (List String)`: `none` for an absent key, `some v` for a key
  holding the vector `v`.  Two maps are the same map exactly when they have the
  same keys holding the same vectors, which is equality of these functions.
* `std::find_if` returns the position of the first element satisfying the
  predicate, `end()` when there is none.
* `std::remove_if` / `std::remove` followed by `erase(it, end())` keeps the
  elements that do not satisfy the predicate, in their relative order; the
  iterator `it` is the number of elements kept.
* A `Task` holds a reference to its `TaskManager`; a method of `Task` that goes
  through that reference takes the manager as an argument and returns it.
* What a method prints on `std::cout` is returned as a `String` next to the
  new state.
-/

namespace TaskOrganizer

/-! ## Data model -/

/-- Class `Subtask`: a name and a duration in days. -/
structure Subtask where
  name : String
  duration : Int
deriving DecidableEq, Repr

/-- Class `Task`: a name, a duration in days and the owned subtasks, in
insertion order. -/
structure Task where
  name : String
  duration : Int
  subtasks : List Subtask
deriving DecidableEq, Repr

/-- The type of `TaskManager::adjacencyList`. -/
abbrev AdjacencyList := String → Option (List String)

/-- Class `TaskManager`: the task vector and the adjacency list. -/
structure TaskManager where
  tasks : List Task
  adjacencyList : AdjacencyList

/-! ## Standard-library algorithms -/

/-- `std::find_if(v.begin(), v.end(), pred)` as a position: the index of the
first element satisfying `pred`, or `v.length` (that is `end()`). -/
def find_if {α : Type} (pred : α → Bool) : List α → Nat
  | [] => 0
  | x :: xs => if pred x then 0 else find_if pred xs + 1

/-- `std::remove_if(v.begin(), v.end(), pred)`: the elements that do not
satisfy `pred`, in their relative order.  They occupy the positions before the
returned iterator, which is the length of this list. -/
def remove_if {α : Type} (pred : α → Bool) : List α → List α
  | [] => []
  | x :: xs => if pred x then remove_if pred xs else x :: remove_if pred xs

/-- The map after `adjacencyList.erase(key)`. -/
def AdjacencyList.erase (a : AdjacencyList) (key : String) : AdjacencyList :=
  fun k => if k = key then none else a k

/-- The vector that `adjacencyList[key]` refers to: the stored one, or the
empty vector that `operator[]` inserts for an absent key. -/
def AdjacencyList.subscript (a : AdjacencyList) (key : String) : List String :=
  (a key).getD []

/-- The map after `adjacencyList[key]` has been evaluated and the vector it
refers to has been overwritten with `v`.  The key exists afterwards, also
when it was absent before. -/
def AdjacencyList.assign (a : AdjacencyList) (key : String) (v : List String) :
    AdjacencyList :=
  fun k => if k = key then some v else a k

/-! ## Subtask -/

/-- `Subtask::getName`. -/
def Subtask.getName (self : Subtask) : String := self.name

/-- `Subtask::edit`: both fields are overwritten. -/
def Subtask.edit (_self : Subtask) (newName : String) (newDuration : Int) : Subtask :=
  { name := newName, duration := newDuration }

/-! ## TaskManager -/

/-- `TaskManager::addTask`: `tasks.push_back`. -/
def TaskManager.addTask (self : TaskManager) (task : Task) : TaskManager :=
  { self with tasks := self.tasks ++ [task] }

/-- `TaskManager::addEdge`: `adjacencyList[source].push_back(destination)`. -/
def TaskManager.addEdge (self : TaskManager) (source destination : String) : TaskManager :=
  { self with
    adjacencyList :=
      self.adjacencyList.assign source (self.adjacencyList.subscript source ++ [destination]) }

/-- The iterator computed in `TaskManager::findTask`. -/
def TaskManager.findTaskIt (self : TaskManager) (taskName : String) : Nat :=
  find_if (fun task => task.name == taskName) self.tasks

/-- `TaskManager::findTask`: the task at the iterator, `none` (the null
pointer) when the iterator is `end()`. -/
def TaskManager.findTask (self : TaskManager) (taskName : String) : Option Task :=
  let it := self.findTaskIt taskName
  if it ≠ self.tasks.length then self.tasks[it]? else none

/-- `TaskManager::removeTask`, with the line it prints. -/
def TaskManager.removeTask (self : TaskManager) (taskName : String) :
    TaskManager × String :=
  let kept := remove_if (fun task => task.name == taskName) self.tasks
  if kept.length ≠ self.tasks.length then
    ({ tasks := kept, adjacencyList := self.adjacencyList.erase taskName },
      "Task removed successfully.\n")
  else
    (self, "Task not found.\n")

/-- `TaskManager::removeEdge`: `neighbors` is `adjacencyList[source]`, from
which every element equal to `destination` is erased. -/
def TaskManager.removeEdge (self : TaskManager) (source destination : String) :
    TaskManager :=
  let neighbors := self.adjacencyList.subscript source
  { self with
    adjacencyList :=
      self.adjacencyList.assign source (remove_if (fun x => x == destination) neighbors) }

/-! ## Task -/

/-- `Task::getName`. -/
def Task.getName (self : Task) : String := self.name

/-- `Task::addSubtask`: `subtasks.push_back`. -/
def Task.addSubtask (self : Task) (subtask : Subtask) : Task :=
  { self with subtasks := self.subtasks ++ [subtask] }

/-- `Task::edit` of `tugas.cpp`: both fields are overwritten, nothing else. -/
def Task.edit (self : Task) (newName : String) (newDuration : Int) : Task :=
  { self with name := newName, duration := newDuration }

/-- The iterator computed in `Task::findSubtask`. -/
def Task.findSubtaskIt (self : Task) (subtaskName : String) : Nat :=
  find_if (fun subtask => subtask.getName == subtaskName) self.subtasks

/-- `Task::findSubtask`: the subtask at the iterator, `none` (the null
pointer) when the iterator is `end()`. -/
def Task.findSubtask (self : Task) (subtaskName : String) : Option Subtask :=
  let it := self.findSubtaskIt subtaskName
  if it ≠ self.subtasks.length then self.subtasks[it]? else none

/-- `Task::removeSubtask`, with the line it prints.  `taskManager` is the
manager the task refers to; only its adjacency list is touched, through
`removeEdge`. -/
def Task.removeSubtask (self : Task) (taskManager : TaskManager) (subtaskName : String) :
    Task × TaskManager × String :=
  let kept := remove_if (fun subtask => subtask.getName == subtaskName) self.subtasks
  if kept.length ≠ self.subtasks.length then
    ({ self with subtasks := kept }, taskManager.removeEdge self.name subtaskName,
      "Subtask removed successfully.\n")
  else
    (self, taskManager, "Subtask not found.\n")

/-- The task after the subtasks of `subs` have been added one after another
with `Task::addSubtask`. -/
def Task.addSubtasks (self : Task) (subs : List Subtask) : Task :=
  subs.foldl Task.addSubtask self

/-- The empty registry: no task, no key in the adjacency list. -/
def TaskManager.empty : TaskManager :=
  { tasks := [], adjacencyList := fun _ => none }

/-- A registry with two tasks, used to instantiate the theorems below. -/
def sampleManager : TaskManager :=
  { tasks := [⟨"A", 1, []⟩, ⟨"B", 2, [⟨"s", 1⟩, ⟨"u", 4⟩]⟩],
    adjacencyList := fun k => if k = "B" then some ["s", "u"] else none }

/-- A task with two subtasks, used to instantiate the theorems below. -/
def sampleTask : Task := ⟨"B", 2, [⟨"s", 1⟩, ⟨"u", 4⟩]⟩

/-- A registry holding two tasks with the same name and different durations. -/
def duplicateManager : TaskManager :=
  { tasks := [⟨"A", 5, []⟩, ⟨"A", 7, []⟩], adjacencyList := fun _ => none }

/-- A registry holding one task named "A". -/
def singleManager : TaskManager :=
  { tasks := [⟨"A", 5, []⟩], adjacencyList := fun _ => none }

/-- A task without subtasks. -/
def bareTask : Task := ⟨"T", 1, []⟩

/-- Two subtasks with the same name and different durations. -/
def duplicateSubtasks : List Subtask := [⟨"a", 1⟩, ⟨"a", 2⟩]

/-- Two subtasks with different names. -/
def distinctSubtasks : List Subtask := [⟨"a", 1⟩, ⟨"b", 2⟩]

/-- The task "A" with one subtask "s", after `Task::edit` renamed it to "B". -/
def renamedTask : Task := Task.edit ⟨"A", 1, [⟨"s", 1⟩]⟩ "B" 1

/-- The registry around `renamedTask`: the edge "A" -> "s" was recorded when the
task was created, and the rename did not touch the relation index. -/
def renamedManager : TaskManager :=
  { tasks := [renamedTask],
    adjacencyList := fun k => if k = "A" then some ["s"] else none }

/-! ## Console output

What is written on `std::cout` by the display methods, as the list of the
texts written before each `std::endl`. -/

/-- `Subtask::display`. -/
def Subtask.display (self : Subtask) : List String :=
  ["    Subtask: " ++ self.name ++ " (" ++ toString self.duration ++ " days)"]

/-- `Task::display`: the header, then the loop over the subtasks. -/
def Task.display (self : Task) : List String :=
  self.subtasks.foldl (fun out subtask => out ++ subtask.display)
    ["Task: " ++ self.name ++ ", Duration: " ++ toString self.duration ++ " days"]

/-- `TaskManager::displayTasks`: the loop over the tasks. -/
def TaskManager.displayTasks (self : TaskManager) : List String :=
  self.tasks.foldl (fun out task => out ++ task.display) []

/-- The text the specification gives for a task header,
`<name>, Duration: <duration> days`. -/
def headerText (t : Task) : String :=
  t.name ++ ", Duration: " ++ toString t.duration ++ " days"

/-- The text the specification gives for a subtask line,
`<name> (<duration> days)`. -/
def subtaskText (x : Subtask) : String :=
  x.name ++ " (" ++ toString x.duration ++ " days)"

/-! ## The variant of `tempCodeRunnerFile.cpp` -/

/-- `Task::edit` of `tempCodeRunnerFile.cpp`: `removeEdge(name, "")`, the two
fields are overwritten, `addEdge(newName, "")`.  `removeEdge` and `addEdge` of
that file are those of `tugas.cpp`. -/
def Variant.Task.edit (self : Task) (taskManager : TaskManager) (newName : String)
    (newDuration : Int) : Task × TaskManager :=
  let afterRemove := taskManager.removeEdge self.name ""
  let renamed : Task := { self with name := newName, duration := newDuration }
  (renamed, afterRemove.addEdge newName "")

/-! ## The menu of `main`

A pointer returned by `findTask` or `findSubtask` is the position given by the
iterator; a call through the pointer rewrites the element at that position. -/

/-- Menu option 1: the task is built with one `addSubtask` and one
`addEdge(task name, subtask name)` per subtask read, then `addTask`.
`subtaskInputs` are the names and durations read in the loop. -/
def menuAddTask (taskManager : TaskManager) (name : String) (duration : Int)
    (subtaskInputs : List (String × Int)) : TaskManager :=
  let loop := subtaskInputs.foldl
    (fun (st : Task × TaskManager) (input : String × Int) =>
      (st.1.addSubtask ⟨input.1, input.2⟩, st.2.addEdge st.1.getName input.1))
    (({ name := name, duration := duration, subtasks := [] } : Task), taskManager)
  loop.2.addTask loop.1

/-- Menu option 3: `findTask`, then `Task::edit` through the pointer. -/
def menuEditTask (taskManager : TaskManager) (taskName newName : String)
    (newDuration : Int) : TaskManager × String :=
  match taskManager.findTask taskName with
  | some task =>
    ({ taskManager with
        tasks := taskManager.tasks.set (taskManager.findTaskIt taskName)
          (task.edit newName newDuration) },
      "Task edited successfully.\n")
  | none => (taskManager, "Task not found.\n")

/-- The call `p->edit(newName, newDuration)` of `Subtask::edit` through a
pointer `p` to the subtask at position `jt` of the task at position `it`.  The
program only holds pointers to existing elements; for other positions the
registry is returned as it is. -/
def TaskManager.editSubtaskAt (self : TaskManager) (it jt : Nat) (newName : String)
    (newDuration : Int) : TaskManager :=
  match self.tasks[it]? with
  | some task =>
    match task.subtasks[jt]? with
    | some subtask =>
      { self with
        tasks := self.tasks.set it
          { task with subtasks := task.subtasks.set jt (subtask.edit newName newDuration) } }
    | none => self
  | none => self

/-- Menu option 4: `findTask`, `findSubtask`, then `Subtask::edit` through the
pointer. -/
def menuEditSubtask (taskManager : TaskManager) (taskName subtaskName newName : String)
    (newDuration : Int) : TaskManager × String :=
  match taskManager.findTask taskName with
  | some task =>
    match task.findSubtask subtaskName with
    | some _ =>
      (taskManager.editSubtaskAt (taskManager.findTaskIt taskName)
          (task.findSubtaskIt subtaskName) newName newDuration,
        "Subtask edited successfully.\n")
    | none => (taskManager, "Subtask not found.\n")
  | none => (taskManager, "Task not found.\n")

/-- The call `p->removeSubtask(subtaskName)` through a pointer `p` to the task
at position `it`: `Task::removeSubtask` changes that task and, through
`removeEdge`, the adjacency list.  The program only holds pointers to existing
tasks; for another position the registry is returned as it is. -/
def TaskManager.removeSubtaskAt (self : TaskManager) (it : Nat) (subtaskName : String) :
    TaskManager × String :=
  match self.tasks[it]? with
  | some task =>
    let r := task.removeSubtask self subtaskName
    ({ r.2.1 with tasks := r.2.1.tasks.set it r.1 }, r.2.2)
  | none => (self, "")

/-- Menu option 6: `findTask`, then `Task::removeSubtask` through the pointer. -/
def menuRemoveSubtask (taskManager : TaskManager) (taskName subtaskName : String) :
    TaskManager × String :=
  match taskManager.findTask taskName with
  | some _ => taskManager.removeSubtaskAt (taskManager.findTaskIt taskName) subtaskName
  | none => (taskManager, "Task not found.\n")

/-- The menu options that change the registry, with what the user types. -/
inductive Command where
  | addTask (name : String) (duration : Int) (subtaskInputs : List (String × Int))
  | editTask (taskName newName : String) (newDuration : Int)
  | editSubtask (taskName subtaskName newName : String) (newDuration : Int)
  | removeTask (taskName : String)
  | removeSubtask (taskName subtaskName : String)
deriving DecidableEq, Repr

/-- Options 3 and 4, the edits. -/
def Command.isEdit : Command → Bool
  | .editTask _ _ _ => true
  | .editSubtask _ _ _ _ => true
  | _ => false

/-- One turn of the menu loop of `main`. -/
def step (taskManager : TaskManager) : Command → TaskManager
  | .addTask name duration subtaskInputs => menuAddTask taskManager name duration subtaskInputs
  | .editTask taskName newName newDuration =>
    (menuEditTask taskManager taskName newName newDuration).1
  | .editSubtask taskName subtaskName newName newDuration =>
    (menuEditSubtask taskManager taskName subtaskName newName newDuration).1
  | .removeTask taskName => (taskManager.removeTask taskName).1
  | .removeSubtask taskName subtaskName =>
    (menuRemoveSubtask taskManager taskName subtaskName).1

/-- The registry after the commands have been run in order. -/
def run (taskManager : TaskManager) (commands : List Command) : TaskManager :=
  commands.foldl step taskManager

/-- Soundness of the relation index: every destination listed under a key is
the name of a subtask owned by some task of the registry carrying the key as
its name. -/
def IndexSound (m : TaskManager) : Prop :=
  ∀ n v, m.adjacencyList n = some v → ∀ s ∈ v,
    ∃ t ∈ m.tasks, t.name = n ∧ ∃ x ∈ t.subtasks, x.name = s

/-- The registry of the specification's example: task Build (5 days) with the
subtasks Design (2 days) and Code (3 days), added as menu option 1 does. -/
def buildManager : TaskManager :=
  menuAddTask TaskManager.empty "Build" 5 [("Design", 2), ("Code", 3)]

/-- Commands of options 1, 5 and 6 only. -/
def sampleCommands : List Command :=
  [.addTask "A" 1 [("s", 1), ("u", 2)], .addTask "A" 2 [("s", 3)],
    .removeSubtask "A" "s", .addTask "B" 1 [("s", 1)], .removeTask "B"]

/-- A registry whose relation index lists "s" twice under "A". -/
def repeatedEdgeManager : TaskManager :=
  { tasks := [⟨"A", 1, [⟨"s", 1⟩, ⟨"u", 2⟩, ⟨"s", 3⟩]⟩],
    adjacencyList := fun k => if k = "A" then some ["s", "u", "s"] else none }

/-- The task of `repeatedEdgeManager`. -/
def repeatedEdgeTask : Task := ⟨"A", 1, [⟨"s", 1⟩, ⟨"u", 2⟩, ⟨"s", 3⟩]⟩

/-! ## Lemmas on the standard-library algorithms -/

theorem remove_if_eq_filter {α : Type} (pred : α → Bool) (l : List α) :
    remove_if pred l = l.filter (fun x => !pred x) := by
  induction l with
  | nil => rfl
  | cons x xs ih => cases hx : pred x <;> simp [remove_if, hx, ih]

theorem mem_remove_if {α : Type} (pred : α → Bool) (l : List α) (x : α) :
    x ∈ remove_if pred l ↔ x ∈ l ∧ pred x = false := by
  simp [remove_if_eq_filter, List.mem_filter]

theorem remove_if_length_le {α : Type} (pred : α → Bool) (l : List α) :
    (remove_if pred l).length ≤ l.length := by
  rw [remove_if_eq_filter]
  exact List.length_filter_le _ _

theorem remove_if_length_eq_iff {α : Type} (pred : α → Bool) (l : List α) :
    (remove_if pred l).length = l.length ↔ ∀ x ∈ l, pred x = false := by
  induction l with
  | nil => simp [remove_if]
  | cons x xs ih =>
    cases hx : pred x
    · simp [remove_if, hx, ih]
    · have := remove_if_length_le pred xs
      simp [remove_if, hx]
      omega

theorem remove_if_of_forall_false {α : Type} (pred : α → Bool) (l : List α)
    (h : ∀ x ∈ l, pred x = false) : remove_if pred l = l := by
  induction l with
  | nil => rfl
  | cons x xs ih =>
    have hx : pred x = false := h x (List.mem_cons_self _ _)
    have hxs : ∀ y ∈ xs, pred y = false := fun y hy => h y (List.mem_cons_of_mem _ hy)
    simp [remove_if, hx, ih hxs]

theorem find_if_le_length {α : Type} (pred : α → Bool) (l : List α) :
    find_if pred l ≤ l.length := by
  induction l with
  | nil => simp [find_if]
  | cons x xs ih =>
    cases hx : pred x <;> simp [find_if, hx]
    exact ih

theorem find_if_eq_length_iff {α : Type} (pred : α → Bool) (l : List α) :
    find_if pred l = l.length ↔ ∀ x ∈ l, pred x = false := by
  induction l with
  | nil => simp [find_if]
  | cons x xs ih => cases hx : pred x <;> simp [find_if, hx, ih]

/-- The element that a lookup through `find_if` returns: the one at the
iterator, nothing when the iterator is `end()`. -/
theorem find_if_lookup_eq_find {α : Type} (pred : α → Bool) (l : List α) :
    (if find_if pred l ≠ l.length then l[find_if pred l]? else none) = l.find? pred := by
  induction l with
  | nil => simp [find_if]
  | cons x xs ih =>
    cases hx : pred x
    · simp only [find_if, hx, List.find?_cons, List.length_cons]
      rw [← ih]
      simp
    · simp [find_if, hx, List.find?_cons]

theorem filter_ne_remove_if {α : Type} (pred : α → Bool) (l : List α) :
    (remove_if pred l).filter (fun x => !pred x) = l.filter (fun x => !pred x) := by
  rw [remove_if_eq_filter, List.filter_filter]
  congr 1
  funext x
  cases pred x <;> rfl

theorem find_if_append_of_forall_false {α : Type} (pred : α → Bool) (l₁ l₂ : List α)
    (h : ∀ x ∈ l₁, pred x = false) :
    find_if pred (l₁ ++ l₂) = l₁.length + find_if pred l₂ := by
  induction l₁ with
  | nil => simp
  | cons x xs ih =>
    have hx : pred x = false := h x (List.mem_cons_self _ _)
    have hxs : ∀ y ∈ xs, pred y = false := fun y hy => h y (List.mem_cons_of_mem _ hy)
    have hstep : find_if pred (x :: (xs ++ l₂)) = find_if pred (xs ++ l₂) + 1 := by
      simp [find_if, hx]
    rw [List.cons_append, hstep, ih hxs, List.length_cons]
    omega

/-- A lookup through `find_if` returns `x` exactly when `x` is the first
element satisfying the predicate; the iterator is then its position. -/
theorem find_if_lookup_eq_some_iff {α : Type} (pred : α → Bool) (l : List α) (x : α) :
    (if find_if pred l ≠ l.length then l[find_if pred l]? else none) = some x ↔
      ∃ pre post, l = pre ++ x :: post ∧ pred x = true ∧ (∀ u ∈ pre, pred u = false) ∧
        find_if pred l = pre.length := by
  rw [find_if_lookup_eq_find, List.find?_eq_some]
  constructor
  · rintro ⟨hx, pre, post, hl, hpre⟩
    have hpre2 : ∀ u ∈ pre, pred u = false := fun u hu => by simpa using hpre u hu
    refine ⟨pre, post, hl, hx, hpre2, ?_⟩
    rw [hl, find_if_append_of_forall_false pred pre _ hpre2]
    simp [find_if, hx]
  · rintro ⟨pre, post, hl, hx, hpre, -⟩
    exact ⟨hx, pre, post, hl, fun u hu => by simp [hpre u hu]⟩

/-- A lookup through `find_if` returns nothing exactly when no element
satisfies the predicate. -/
theorem find_if_lookup_eq_none_iff {α : Type} (pred : α → Bool) (l : List α) :
    (if find_if pred l ≠ l.length then l[find_if pred l]? else none) = none ↔
      ∀ u ∈ l, pred u = false := by
  rw [find_if_lookup_eq_find, List.find?_eq_none]
  simp

/-! ## Removing a task -/

/-- C1: after `removeTask(n)`, `findTask(n)` reports not-found, whatever the
registry held before (no task named `n`, one, or several). -/
theorem removeTask_then_findTask_none (m : TaskManager) (n : String) :
    (m.removeTask n).1.findTask n = none := by
  have key : ∀ l : List Task, (∀ t ∈ l, (t.name == n) = false) →
      (if find_if (fun task => task.name == n) l ≠ l.length
        then l[find_if (fun task => task.name == n) l]? else none) = none := by
    intro l hl
    simp [(find_if_eq_length_iff _ l).2 hl]
  unfold TaskManager.removeTask
  by_cases h : (remove_if (fun task => task.name == n) m.tasks).length = m.tasks.length
  · simp only [h, ne_eq, not_true_eq_false, if_false]
    exact key _ ((remove_if_length_eq_iff _ _).1 h)
  · simp only [h, ne_eq, not_false_eq_true, if_true]
    exact key _ (fun t ht => ((mem_remove_if _ _ t).1 ht).2)

/-- C2: when some task is named `n`, `removeTask(n)` leaves no key `n` in the
relation index, leaves the vector under every other key as it was, and the
tasks whose name differs from `n` are the same after as before, in the same
order and with the same subtasks. -/
theorem removeTask_frame (m : TaskManager) (n : String)
    (h : ∃ t ∈ m.tasks, t.name = n) :
    (m.removeTask n).1.adjacencyList n = none ∧
    (∀ k, k ≠ n → (m.removeTask n).1.adjacencyList k = m.adjacencyList k) ∧
    (m.removeTask n).1.tasks.filter (fun t => !(t.name == n)) =
      m.tasks.filter (fun t => !(t.name == n)) := by
  have hlen : (remove_if (fun task => task.name == n) m.tasks).length ≠ m.tasks.length := by
    intro hc
    obtain ⟨t, ht, hn⟩ := h
    have := (remove_if_length_eq_iff _ _).1 hc t ht
    simp [hn] at this
  unfold TaskManager.removeTask
  simp only [hlen, ne_eq, not_false_eq_true, if_true]
  refine ⟨by simp [AdjacencyList.erase], ?_, ?_⟩
  · intro k hk
    simp [AdjacencyList.erase, hk]
  · exact filter_ne_remove_if (fun task : Task => task.name == n) m.tasks

theorem removeTask_frame_witness :
    (∃ t ∈ sampleManager.tasks, t.name = "A") ∧
    ((sampleManager.removeTask "A").1.adjacencyList "A" = none ∧
    (∀ k, k ≠ "A" →
      (sampleManager.removeTask "A").1.adjacencyList k = sampleManager.adjacencyList k) ∧
    (sampleManager.removeTask "A").1.tasks.filter (fun t => !(t.name == "A")) =
      sampleManager.tasks.filter (fun t => !(t.name == "A"))) :=
  ⟨⟨⟨"A", 1, []⟩, by simp [sampleManager], rfl⟩,
    removeTask_frame sampleManager "A" ⟨⟨"A", 1, []⟩, by simp [sampleManager], rfl⟩⟩

/-! ## Removing a subtask -/

/-- C3: after `removeSubtask(s)`, `findSubtask(s)` reports not-found, and the
subtasks whose name differs from `s` are the same after as before: same names,
same durations, same order. -/
theorem removeSubtask_then_findSubtask_none (t : Task) (m : TaskManager) (s : String) :
    (t.removeSubtask m s).1.findSubtask s = none ∧
    (t.removeSubtask m s).1.subtasks.filter (fun x => !(x.name == s)) =
      t.subtasks.filter (fun x => !(x.name == s)) := by
  have key : ∀ l : List Subtask, (∀ x ∈ l, (x.getName == s) = false) →
      (if find_if (fun x => x.getName == s) l ≠ l.length
        then l[find_if (fun x => x.getName == s) l]? else none) = none := by
    intro l hl
    simp [(find_if_eq_length_iff _ l).2 hl]
  unfold Task.removeSubtask
  by_cases h : (remove_if (fun x => x.getName == s) t.subtasks).length = t.subtasks.length
  · simp only [h, ne_eq, not_true_eq_false, if_false]
    exact ⟨key _ ((remove_if_length_eq_iff _ _).1 h), trivial⟩
  · simp only [h, ne_eq, not_false_eq_true, if_true]
    exact ⟨key _ (fun x hx => ((mem_remove_if _ _ x).1 hx).2),
      filter_ne_remove_if (fun x : Subtask => x.getName == s) t.subtasks⟩

/-- C4: when no subtask of the task is named `s`, `removeSubtask(s)` prints
"Subtask not found." and returns the task (name, duration, subtasks) and the
manager (tasks and relation index) exactly as they were. -/
theorem removeSubtask_absent_unchanged (t : Task) (m : TaskManager) (s : String)
    (h : ∀ x ∈ t.subtasks, x.name ≠ s) :
    t.removeSubtask m s = (t, m, "Subtask not found.\n") := by
  have hlen : (remove_if (fun x => x.getName == s) t.subtasks).length = t.subtasks.length := by
    rw [remove_if_length_eq_iff]
    intro x hx
    simpa [Subtask.getName] using h x hx
  unfold Task.removeSubtask
  simp only [hlen, ne_eq, not_true_eq_false, if_false]

theorem removeSubtask_absent_unchanged_witness :
    (∀ x ∈ sampleTask.subtasks, x.name ≠ "z") ∧
    sampleTask.removeSubtask sampleManager "z" =
      (sampleTask, sampleManager, "Subtask not found.\n") :=
  ⟨by decide, removeSubtask_absent_unchanged sampleTask sampleManager "z" (by decide)⟩

/-! ## Adding then finding -/

/-- C5 as stated fails: with a task "A" of 5 days already in the registry,
adding a task "A" of 7 days and looking "A" up does not return a task of name
"A" and duration 7. -/
theorem addTask_then_findTask_duplicate :
    ¬ ∃ u, (singleManager.addTask ⟨"A", 7, []⟩).findTask "A" = some u ∧
      u.name = "A" ∧ u.duration = 7 := by
  rintro ⟨u, hu, -, hd⟩
  have h : (singleManager.addTask ⟨"A", 7, []⟩).findTask "A" = some ⟨"A", 5, []⟩ := by
    decide
  rw [h] at hu
  cases hu
  exact absurd hd (by decide)

/-- C5, amended: after `addTask(t)`, `findTask(t.name)` returns a task whose
name is `t.name`, namely the first task carrying that name: the one
`findTask(t.name)` returned before the call if there was one, otherwise `t`.
When no task of the registry carried the name, the task returned is `t`, so
that name and duration are those of `t`. -/
theorem addTask_then_findTask (m : TaskManager) (t : Task) :
    ∃ u, (m.addTask t).findTask t.name = some u ∧ u.name = t.name ∧
      u = (m.findTask t.name).getD t ∧
      ((∀ x ∈ m.tasks, x.name ≠ t.name) → u = t ∧ u.duration = t.duration) := by
  have h1 : (m.addTask t).findTask t.name =
      (m.tasks ++ [t]).find? (fun task => task.name == t.name) :=
    find_if_lookup_eq_find _ _
  have h2 : m.findTask t.name = m.tasks.find? (fun task => task.name == t.name) :=
    find_if_lookup_eq_find _ _
  rw [h1, h2, List.find?_append]
  cases hf : m.tasks.find? (fun task => task.name == t.name) with
  | none =>
    refine ⟨t, by simp, rfl, rfl, fun _ => ⟨rfl, rfl⟩⟩
  | some u =>
    have hu := List.find?_some hf
    refine ⟨u, by simp, by simpa using hu, rfl, fun hno => ?_⟩
    exact absurd (by simpa using hu) (hno u (List.mem_of_find?_eq_some hf))

theorem addTask_then_findTask_witness :
    (∀ x ∈ TaskManager.empty.tasks, x.name ≠ sampleTask.name) ∧
    ∃ u, (TaskManager.empty.addTask sampleTask).findTask sampleTask.name = some u ∧
      u.name = sampleTask.name ∧
      u = (TaskManager.empty.findTask sampleTask.name).getD sampleTask ∧
      ((∀ x ∈ TaskManager.empty.tasks, x.name ≠ sampleTask.name) →
        u = sampleTask ∧ u.duration = sampleTask.duration) :=
  ⟨by decide, addTask_then_findTask TaskManager.empty sampleTask⟩

theorem addSubtasks_subtasks (t : Task) (subs : List Subtask) :
    (t.addSubtasks subs).subtasks = t.subtasks ++ subs := by
  unfold Task.addSubtasks
  induction subs generalizing t with
  | nil => simp
  | cons x xs ih => simp [List.foldl_cons, ih, Task.addSubtask]

theorem find_if_name_of_nodup (subs : List Subtask)
    (hnd : (subs.map Subtask.name).Nodup) (i : Nat) (hi : i < subs.length) :
    find_if (fun y => y.getName == (subs[i]).name) subs = i := by
  induction subs generalizing i with
  | nil => simp at hi
  | cons x xs ih =>
    rw [List.map_cons, List.nodup_cons] at hnd
    cases i with
    | zero => simp [find_if, Subtask.getName]
    | succ j =>
      have hj : j < xs.length := by simpa using hi
      have hne : x.name ≠ (xs[j]).name := by
        intro hc
        exact hnd.1 (hc ▸ List.mem_map_of_mem Subtask.name (List.getElem_mem hj))
      have hstep : find_if (fun y => y.getName == (xs[j]).name) (x :: xs) =
          find_if (fun y => y.getName == (xs[j]).name) xs + 1 := by
        simp [find_if, Subtask.getName, hne]
      simp only [List.getElem_cons_succ]
      rw [hstep, ih hnd.2 j hj]

/-- C6 as stated fails: after adding two subtasks both named "a", the two
lookups by name return the first one twice and the second one never. -/
theorem addSubtasks_then_findSubtask_duplicate :
    duplicateSubtasks.map
        (fun x => (bareTask.addSubtasks duplicateSubtasks).findSubtask x.name) =
      [some ⟨"a", 1⟩, some ⟨"a", 1⟩] ∧
    ¬ ∀ x ∈ duplicateSubtasks,
      (bareTask.addSubtasks duplicateSubtasks).findSubtask x.name = some x := by
  refine ⟨by decide, fun h => ?_⟩
  have h2 := h ⟨"a", 2⟩ (by decide)
  exact absurd h2 (by decide)

/-- C6, amended: when the added subtasks have pairwise different names and
none of these names is carried by a subtask the task already had, the lookup by
the name of each added subtask returns that subtask, found at the position
where it was appended; the N lookups return the N added subtasks, each once. -/
theorem addSubtasks_then_findSubtask (t : Task) (subs : List Subtask)
    (hnd : (subs.map Subtask.name).Nodup)
    (hfresh : ∀ x ∈ subs, ∀ y ∈ t.subtasks, y.name ≠ x.name) :
    subs.map (fun x => (t.addSubtasks subs).findSubtask x.name) = subs.map some ∧
    ∀ (i : Nat) (hi : i < subs.length),
      (t.addSubtasks subs).findSubtaskIt (subs[i]).name = t.subtasks.length + i := by
  have hpos : ∀ (i : Nat) (hi : i < subs.length),
      (t.addSubtasks subs).findSubtaskIt (subs[i]).name = t.subtasks.length + i := by
    intro i hi
    unfold Task.findSubtaskIt
    rw [addSubtasks_subtasks, find_if_append_of_forall_false, find_if_name_of_nodup subs hnd i hi]
    intro y hy
    simpa [Subtask.getName] using hfresh _ (List.getElem_mem hi) y hy
  refine ⟨?_, hpos⟩
  apply List.map_congr_left
  intro x hx
  obtain ⟨i, hi, rfl⟩ := List.getElem_of_mem hx
  have hp := hpos i hi
  unfold Task.findSubtaskIt at hp
  rw [addSubtasks_subtasks] at hp
  unfold Task.findSubtask Task.findSubtaskIt
  simp only [addSubtasks_subtasks, hp, List.length_append]
  have hne : t.subtasks.length + i ≠ t.subtasks.length + subs.length := by omega
  simp [hne, List.getElem?_append_right, hi]
  rw [List.getElem_append_right (by omega)]
  simp

theorem addSubtasks_then_findSubtask_witness :
    (distinctSubtasks.map Subtask.name).Nodup ∧
    (∀ x ∈ distinctSubtasks, ∀ y ∈ sampleTask.subtasks, y.name ≠ x.name) ∧
    (distinctSubtasks.map (fun x => (sampleTask.addSubtasks distinctSubtasks).findSubtask x.name)
        = distinctSubtasks.map some ∧
      ∀ (i : Nat) (hi : i < distinctSubtasks.length),
        (sampleTask.addSubtasks distinctSubtasks).findSubtaskIt (distinctSubtasks[i]).name =
          sampleTask.subtasks.length + i) :=
  ⟨by decide, by decide,
    addSubtasks_then_findSubtask sampleTask distinctSubtasks (by decide) (by decide)⟩

/-! ## The relation index under `removeSubtask` and `removeEdge` -/

/-- C7: when some subtask of the task is named `s`, after `removeSubtask(s)`
the vector under the task's name holds no `s`, holds its other destinations in
their original order, and the vector under every other key is as it was. -/
theorem removeSubtask_index (t : Task) (m : TaskManager) (s : String)
    (h : ∃ x ∈ t.subtasks, x.name = s) :
    ∃ v, (t.removeSubtask m s).2.1.adjacencyList t.name = some v ∧ s ∉ v ∧
      v.filter (fun d => !(d == s)) =
        (m.adjacencyList.subscript t.name).filter (fun d => !(d == s)) ∧
      ∀ k, k ≠ t.name → (t.removeSubtask m s).2.1.adjacencyList k = m.adjacencyList k := by
  have hlen : (remove_if (fun x => x.getName == s) t.subtasks).length ≠ t.subtasks.length := by
    intro hc
    obtain ⟨x, hx, hn⟩ := h
    have := (remove_if_length_eq_iff _ _).1 hc x hx
    simp [Subtask.getName, hn] at this
  unfold Task.removeSubtask
  simp only [hlen, ne_eq, not_false_eq_true, if_true]
  refine ⟨remove_if (fun x => x == s) (m.adjacencyList.subscript t.name), ?_, ?_, ?_, ?_⟩
  · simp [TaskManager.removeEdge, AdjacencyList.assign]
  · intro hmem
    have := ((mem_remove_if _ _ s).1 hmem).2
    simp at this
  · exact filter_ne_remove_if (fun x : String => x == s) _
  · intro k hk
    simp [TaskManager.removeEdge, AdjacencyList.assign, hk]

theorem removeSubtask_index_witness :
    (∃ x ∈ sampleTask.subtasks, x.name = "s") ∧
    ∃ v, (sampleTask.removeSubtask sampleManager "s").2.1.adjacencyList sampleTask.name
        = some v ∧ "s" ∉ v ∧
      v.filter (fun d => !(d == "s")) =
        (sampleManager.adjacencyList.subscript sampleTask.name).filter (fun d => !(d == "s")) ∧
      ∀ k, k ≠ sampleTask.name →
        (sampleTask.removeSubtask sampleManager "s").2.1.adjacencyList k =
          sampleManager.adjacencyList k :=
  ⟨⟨⟨"s", 1⟩, by decide, rfl⟩,
    removeSubtask_index sampleTask sampleManager "s" ⟨⟨"s", 1⟩, by decide, rfl⟩⟩

/-- When `source` is a key and `destination` does not occur under it,
`removeEdge` returns the manager as it was. -/
theorem removeEdge_key_present_unchanged (m : TaskManager) (source destination : String)
    (v : List String) (hkey : m.adjacencyList source = some v) (habs : destination ∉ v) :
    m.removeEdge source destination = m := by
  have hv : remove_if (fun x => x == destination) v = v := by
    apply remove_if_of_forall_false
    intro x hx
    have : x ≠ destination := fun hc => habs (hc ▸ hx)
    simpa using this
  have hadj : m.adjacencyList.assign source
      (remove_if (fun x => x == destination) (m.adjacencyList.subscript source)) =
      m.adjacencyList := by
    funext k
    unfold AdjacencyList.assign AdjacencyList.subscript
    by_cases hk : k = source
    · simp [hk, hkey, hv]
    · simp [hk]
  unfold TaskManager.removeEdge
  simp only [hadj]

/-- C8, on the code: `removeEdge` is not a no-op when `source` is not a key.
On the empty relation index `removeEdge("B", "s")` creates the key "B" with an
empty vector; the same happens when `removeSubtask("s")` is called on a task
renamed from "A" to "B" whose edge is recorded under "A". -/
theorem removeEdge_absent_key_creates_entry :
    TaskManager.empty.adjacencyList "B" = none ∧
    (TaskManager.empty.removeEdge "B" "s").adjacencyList "B" = some [] ∧
    (TaskManager.empty.removeEdge "B" "s").adjacencyList ≠ TaskManager.empty.adjacencyList ∧
    renamedManager.adjacencyList "B" = none ∧
    (renamedTask.removeSubtask renamedManager "s").2.1.adjacencyList "B" = some [] := by
  refine ⟨rfl, by decide, ?_, by decide, by decide⟩
  intro hc
  have := congrFun hc "B"
  exact absurd this (by decide)

/-! ## First-match lookups -/

/-- C9: `findSubtask(n)` and `findTask(n)` each report not-found exactly when
no element is named `n`, and otherwise return the first element named `n` in
insertion order: every element before the returned one has another name, and
the iterator is the position of the returned element. -/
theorem find_first_match (t : Task) (m : TaskManager) (n : String) :
    (t.findSubtask n = none ↔ ∀ x ∈ t.subtasks, x.name ≠ n) ∧
    (∀ x, t.findSubtask n = some x ↔
      ∃ pre post, t.subtasks = pre ++ x :: post ∧ x.name = n ∧
        (∀ u ∈ pre, u.name ≠ n) ∧ t.findSubtaskIt n = pre.length) ∧
    (m.findTask n = none ↔ ∀ x ∈ m.tasks, x.name ≠ n) ∧
    (∀ x, m.findTask n = some x ↔
      ∃ pre post, m.tasks = pre ++ x :: post ∧ x.name = n ∧
        (∀ u ∈ pre, u.name ≠ n) ∧ m.findTaskIt n = pre.length) := by
  refine ⟨?_, ?_, ?_, ?_⟩
  · have := find_if_lookup_eq_none_iff (fun x : Subtask => x.getName == n) t.subtasks
    simpa [Task.findSubtask, Task.findSubtaskIt, Subtask.getName] using this
  · intro x
    have := find_if_lookup_eq_some_iff (fun x : Subtask => x.getName == n) t.subtasks x
    simpa [Task.findSubtask, Task.findSubtaskIt, Subtask.getName] using this
  · have := find_if_lookup_eq_none_iff (fun x : Task => x.name == n) m.tasks
    simpa [TaskManager.findTask, TaskManager.findTaskIt] using this
  · intro x
    have := find_if_lookup_eq_some_iff (fun x : Task => x.name == n) m.tasks x
    simpa [TaskManager.findTask, TaskManager.findTaskIt] using this

/-! ## How many tasks `removeTask` removes -/

theorem filter_eq_eraseP_of_countP_one {α : Type} (pred : α → Bool) (l : List α)
    (h : l.countP pred = 1) : l.filter (fun x => !pred x) = l.eraseP pred := by
  induction l with
  | nil => simp at h
  | cons x xs ih =>
    cases hx : pred x
    · have hxs : xs.countP pred = 1 := by simpa [List.countP_cons, hx] using h
      simp [List.filter_cons, List.eraseP_cons, hx, ih hxs]
    · have hxs : xs.countP pred = 0 := by simpa [List.countP_cons, hx] using h
      have hall : ∀ a ∈ xs, (!pred a) = true := by
        intro a ha
        have := (List.countP_eq_zero.1 hxs) a ha
        simpa using this
      simp [List.filter_cons, List.eraseP_cons, hx, List.filter_eq_self.2 hall]

theorem length_remove_if_add_countP {α : Type} (pred : α → Bool) (l : List α) :
    (remove_if pred l).length + l.countP pred = l.length := by
  induction l with
  | nil => simp [remove_if]
  | cons x xs ih =>
    cases hx : pred x <;> simp [remove_if, List.countP_cons, hx] <;> omega

/-- C10 as stated fails: with two tasks named "A", `removeTask("A")` leaves no
task, while removing only the first task named "A" would leave the second; the
task count drops by two, not by one. -/
theorem removeTask_duplicate_removes_all :
    (∃ t ∈ duplicateManager.tasks, t.name = "A") ∧
    (duplicateManager.removeTask "A").1.tasks = [] ∧
    duplicateManager.tasks.eraseP (fun t => t.name == "A") = [⟨"A", 7, []⟩] ∧
    (duplicateManager.removeTask "A").1.tasks ≠
      duplicateManager.tasks.eraseP (fun t => t.name == "A") ∧
    (duplicateManager.removeTask "A").1.tasks.length + 1 ≠ duplicateManager.tasks.length := by
  refine ⟨⟨⟨"A", 5, []⟩, by decide, rfl⟩, by decide, by decide, by decide, by decide⟩

/-- C10, amended: when some task is named `n`, the task sequence after
`removeTask(n)` is the sequence before it with every task named `n` removed;
the count drops by the number of tasks named `n`, which is at least one. When
exactly one task is named `n` this is the removal of the first task named
`n`, and the count drops by exactly one. -/
theorem removeTask_removes_all_matches (m : TaskManager) (n : String)
    (h : ∃ t ∈ m.tasks, t.name = n) :
    (m.removeTask n).1.tasks = m.tasks.filter (fun t => !(t.name == n)) ∧
    (m.removeTask n).1.tasks.length + m.tasks.countP (fun t => t.name == n) =
      m.tasks.length ∧
    0 < m.tasks.countP (fun t => t.name == n) ∧
    (m.tasks.countP (fun t => t.name == n) = 1 →
      (m.removeTask n).1.tasks = m.tasks.eraseP (fun t => t.name == n) ∧
      (m.removeTask n).1.tasks.length + 1 = m.tasks.length) := by
  have hlen : (remove_if (fun task => task.name == n) m.tasks).length ≠ m.tasks.length := by
    intro hc
    obtain ⟨t, ht, hn⟩ := h
    have := (remove_if_length_eq_iff _ _).1 hc t ht
    simp [hn] at this
  have hsum := length_remove_if_add_countP (fun task : Task => task.name == n) m.tasks
  unfold TaskManager.removeTask
  simp only [hlen, ne_eq, not_false_eq_true, if_true]
  refine ⟨remove_if_eq_filter _ _, hsum, by omega, fun h1 => ⟨?_, by omega⟩⟩
  rw [remove_if_eq_filter]
  exact filter_eq_eraseP_of_countP_one _ _ h1

theorem removeTask_removes_all_matches_witness :
    (∃ t ∈ sampleManager.tasks, t.name = "B") ∧
    ((sampleManager.removeTask "B").1.tasks =
        sampleManager.tasks.filter (fun t => !(t.name == "B")) ∧
      (sampleManager.removeTask "B").1.tasks.length +
          sampleManager.tasks.countP (fun t => t.name == "B") =
        sampleManager.tasks.length ∧
      0 < sampleManager.tasks.countP (fun t => t.name == "B") ∧
      (sampleManager.tasks.countP (fun t => t.name == "B") = 1 →
        (sampleManager.removeTask "B").1.tasks =
            sampleManager.tasks.eraseP (fun t => t.name == "B") ∧
          (sampleManager.removeTask "B").1.tasks.length + 1 = sampleManager.tasks.length)) :=
  ⟨⟨sampleTask, by decide, rfl⟩,
    removeTask_removes_all_matches sampleManager "B" ⟨sampleTask, by decide, rfl⟩⟩

/-! ## Adding and removing edges -/

/-- C11: after `addEdge(source, destination)` the vector under `source` is the
previous one (empty when the key was absent) with `destination` appended at
the end, and the vector under every other key is as it was. -/
theorem addEdge_appends (m : TaskManager) (source destination : String) :
    (m.addEdge source destination).adjacencyList source =
      some ((m.adjacencyList source).getD [] ++ [destination]) ∧
    (∀ k, k ≠ source → (m.addEdge source destination).adjacencyList k = m.adjacencyList k) ∧
    (m.addEdge source destination).tasks = m.tasks := by
  refine ⟨?_, ?_, rfl⟩
  · simp [TaskManager.addEdge, AdjacencyList.assign, AdjacencyList.subscript]
  · intro k hk
    simp [TaskManager.addEdge, AdjacencyList.assign, hk]

/-- C15: when `source` is a key holding `v`, after `removeEdge(source,
destination)` the vector under `source` is `v` without any occurrence of
`destination`, the other destinations in their original order, and the vector
under every other key is as it was. -/
theorem removeEdge_removes_every_occurrence (m : TaskManager) (source destination : String)
    (v : List String) (hkey : m.adjacencyList source = some v) :
    (m.removeEdge source destination).adjacencyList source =
      some (v.filter (fun d => !(d == destination))) ∧
    destination ∉ v.filter (fun d => !(d == destination)) ∧
    (∀ k, k ≠ source →
      (m.removeEdge source destination).adjacencyList k = m.adjacencyList k) := by
  refine ⟨?_, ?_, ?_⟩
  · simp [TaskManager.removeEdge, AdjacencyList.assign, AdjacencyList.subscript, hkey,
      remove_if_eq_filter]
  · simp [List.mem_filter]
  · intro k hk
    simp [TaskManager.removeEdge, AdjacencyList.assign, hk]

theorem removeEdge_removes_every_occurrence_witness :
    repeatedEdgeManager.adjacencyList "A" = some ["s", "u", "s"] ∧
    ((repeatedEdgeManager.removeEdge "A" "s").adjacencyList "A" =
        some (["s", "u", "s"].filter (fun d => !(d == "s"))) ∧
      "s" ∉ ["s", "u", "s"].filter (fun d => !(d == "s")) ∧
      (∀ k, k ≠ "A" →
        (repeatedEdgeManager.removeEdge "A" "s").adjacencyList k =
          repeatedEdgeManager.adjacencyList k)) :=
  ⟨rfl, removeEdge_removes_every_occurrence repeatedEdgeManager "A" "s" ["s", "u", "s"] rfl⟩

/-- C14: in the variant `Task::edit` of `tempCodeRunnerFile.cpp`, renaming a
task from `a` to a different name `b` leaves under key `a` the previous
destinations without the empty strings, in their order (no destination moves
to `b`), and leaves under key `b` its previous vector with one empty string
appended. -/
theorem variant_edit_index (t : Task) (m : TaskManager) (b : String) (d : Int)
    (hab : b ≠ t.name) :
    (Variant.Task.edit t m b d).2.adjacencyList t.name =
      some (((m.adjacencyList t.name).getD []).filter (fun x => !(x == ""))) ∧
    (Variant.Task.edit t m b d).2.adjacencyList b =
      some ((m.adjacencyList b).getD [] ++ [""]) ∧
    (Variant.Task.edit t m b d).1 = { t with name := b, duration := d } := by
  have hba : t.name ≠ b := fun h => hab h.symm
  refine ⟨?_, ?_, rfl⟩
  · simp [Variant.Task.edit, TaskManager.addEdge, TaskManager.removeEdge,
      AdjacencyList.assign, AdjacencyList.subscript, hba, remove_if_eq_filter]
  · simp [Variant.Task.edit, TaskManager.addEdge, TaskManager.removeEdge,
      AdjacencyList.assign, AdjacencyList.subscript, hab]

theorem variant_edit_index_witness :
    "C" ≠ repeatedEdgeTask.name ∧
    ((Variant.Task.edit repeatedEdgeTask repeatedEdgeManager "C" 4).2.adjacencyList
        repeatedEdgeTask.name =
      some (((repeatedEdgeManager.adjacencyList repeatedEdgeTask.name).getD []).filter
        (fun x => !(x == ""))) ∧
    (Variant.Task.edit repeatedEdgeTask repeatedEdgeManager "C" 4).2.adjacencyList "C" =
      some ((repeatedEdgeManager.adjacencyList "C").getD [] ++ [""]) ∧
    (Variant.Task.edit repeatedEdgeTask repeatedEdgeManager "C" 4).1 =
      { repeatedEdgeTask with name := "C", duration := 4 }) :=
  ⟨by decide, variant_edit_index repeatedEdgeTask repeatedEdgeManager "C" 4 (by decide)⟩

/-- C16: when no task is named `n`, `removeTask(n)` prints "Task not found."
and returns the registry as it was: same tasks, same relation index, a key
`n` of the index included. -/
theorem removeTask_absent_unchanged (m : TaskManager) (n : String)
    (h : ∀ t ∈ m.tasks, t.name ≠ n) :
    m.removeTask n = (m, "Task not found.\n") := by
  have hlen : (remove_if (fun task => task.name == n) m.tasks).length = m.tasks.length := by
    rw [remove_if_length_eq_iff]
    intro t ht
    simpa using h t ht
  unfold TaskManager.removeTask
  simp only [hlen, ne_eq, not_true_eq_false, if_false]

theorem removeTask_absent_unchanged_witness :
    (∀ t ∈ renamedManager.tasks, t.name ≠ "A") ∧
    renamedManager.adjacencyList "A" = some ["s"] ∧
    renamedManager.removeTask "A" = (renamedManager, "Task not found.\n") :=
  ⟨by decide, rfl, removeTask_absent_unchanged renamedManager "A" (by decide)⟩

/-! ## Console output of `displayTasks` -/

theorem foldl_append_eq_flatten {α β : Type} (f : α → List β) (l : List α) (init : List β) :
    l.foldl (fun out x => out ++ f x) init = init ++ (l.map f).flatten := by
  induction l generalizing init with
  | nil => simp
  | cons x xs ih => simp [List.foldl_cons, ih, List.append_assoc]

theorem task_display_eq (t : Task) :
    t.display = ("Task: " ++ headerText t) ::
      t.subtasks.map (fun x => "    Subtask: " ++ subtaskText x) := by
  unfold Task.display
  rw [foldl_append_eq_flatten]
  have hsub : (t.subtasks.map Subtask.display).flatten =
      t.subtasks.map (fun x => "    Subtask: " ++ subtaskText x) := by
    induction t.subtasks with
    | nil => rfl
    | cons x xs ih =>
      simp only [List.map_cons, List.flatten_cons, ih]
      simp [Subtask.display, subtaskText, String.append_assoc]
  rw [hsub]
  simp [headerText, String.append_assoc]

/-- C12: `displayTasks` writes, for each task in insertion order, one header
line "Task: " followed by `<name>, Duration: <duration> days`, then one line
per subtask of that task in insertion order, "    Subtask: " followed by
`<name> (<duration> days)`.  For the registry holding Build (5) with Design (2)
then Code (3) the output is the Build line, the Design line, the Code line. -/
theorem displayTasks_lines (m : TaskManager) :
    m.displayTasks =
      (m.tasks.map (fun t =>
        ("Task: " ++ headerText t) ::
          t.subtasks.map (fun x => "    Subtask: " ++ subtaskText x))).flatten ∧
    buildManager.tasks = [⟨"Build", 5, [⟨"Design", 2⟩, ⟨"Code", 3⟩]⟩] ∧
    buildManager.displayTasks =
      ["Task: " ++ "Build, Duration: 5 days", "    Subtask: " ++ "Design (2 days)",
        "    Subtask: " ++ "Code (3 days)"] := by
  refine ⟨?_, by decide, by decide⟩
  unfold TaskManager.displayTasks
  rw [foldl_append_eq_flatten, List.nil_append]
  congr 1
  exact List.map_congr_left (fun t _ => task_display_eq t)

/-! ## Menu option 1 -/

theorem menuAddTask_loop (inputs : List (String × Int)) (t0 : Task) (m0 : TaskManager) :
    inputs.foldl
        (fun (st : Task × TaskManager) (input : String × Int) =>
          (st.1.addSubtask ⟨input.1, input.2⟩, st.2.addEdge st.1.getName input.1))
        (t0, m0) =
      ({ t0 with subtasks := t0.subtasks ++ inputs.map (fun p => ⟨p.1, p.2⟩) },
        { tasks := m0.tasks,
          adjacencyList := fun k =>
            if k = t0.name ∧ inputs ≠ []
            then some (m0.adjacencyList.subscript k ++ inputs.map Prod.fst)
            else m0.adjacencyList k }) := by
  induction inputs generalizing t0 m0 with
  | nil => simp
  | cons p ps ih =>
    rw [List.foldl_cons, ih]
    refine Prod.ext ?_ ?_
    · simp [Task.addSubtask]
    · simp only [TaskManager.addEdge, Task.addSubtask, Task.getName, TaskManager.mk.injEq,
        true_and]
      funext k
      by_cases hk : k = t0.name
      · by_cases hps : ps = []
        · simp [hk, hps, AdjacencyList.assign, AdjacencyList.subscript]
        · simp [hk, hps, AdjacencyList.assign, AdjacencyList.subscript]
      · simp [hk, AdjacencyList.assign]

theorem menuAddTask_tasks (m : TaskManager) (name : String) (d : Int)
    (inputs : List (String × Int)) :
    (menuAddTask m name d inputs).tasks =
      m.tasks ++ [⟨name, d, inputs.map (fun p => ⟨p.1, p.2⟩)⟩] := by
  simp [menuAddTask, menuAddTask_loop, TaskManager.addTask]

theorem menuAddTask_adjacencyList (m : TaskManager) (name : String) (d : Int)
    (inputs : List (String × Int)) (k : String) :
    (menuAddTask m name d inputs).adjacencyList k =
      if k = name ∧ inputs ≠ []
      then some (m.adjacencyList.subscript k ++ inputs.map Prod.fst)
      else m.adjacencyList k := by
  simp [menuAddTask, menuAddTask_loop, TaskManager.addTask]

/-! ## Renaming a task -/

/-- C13: from the empty registry, add a task `n` with one subtask `s` as menu
option 1 does, then rename the task to a different name `n2` as menu option 3
does.  The registry then holds the task under its new name with its subtask,
the relation index has no key `n2`, hence no `s` under the new name, and `s`
is still listed under the old name `n`. -/
theorem rename_task_breaks_index (n n2 s : String) (d d2 sd : Int) (hne : n2 ≠ n) :
    (menuEditTask (menuAddTask TaskManager.empty n d [(s, sd)]) n n2 d2).1.tasks =
      [⟨n2, d2, [⟨s, sd⟩]⟩] ∧
    (menuEditTask (menuAddTask TaskManager.empty n d [(s, sd)]) n n2 d2).1.adjacencyList n2 =
      none ∧
    (menuEditTask (menuAddTask TaskManager.empty n d [(s, sd)]) n n2 d2).1.adjacencyList n =
      some [s] := by
  have htasks : (menuAddTask TaskManager.empty n d [(s, sd)]).tasks = [⟨n, d, [⟨s, sd⟩]⟩] := by
    simp [menuAddTask_tasks, TaskManager.empty]
  have hadj : ∀ k, (menuAddTask TaskManager.empty n d [(s, sd)]).adjacencyList k =
      if k = n then some [s] else none := by
    intro k
    simp [menuAddTask_adjacencyList, TaskManager.empty, AdjacencyList.subscript]
  have hfind : (menuAddTask TaskManager.empty n d [(s, sd)]).findTask n =
      some ⟨n, d, [⟨s, sd⟩]⟩ := by
    simp [TaskManager.findTask, TaskManager.findTaskIt, htasks, find_if, Task.addSubtask]
  have hit : (menuAddTask TaskManager.empty n d [(s, sd)]).findTaskIt n = 0 := by
    simp [TaskManager.findTaskIt, htasks, find_if, Task.addSubtask]
  simp [menuEditTask, hfind, hit, htasks, hadj, Task.edit, hne]

theorem rename_task_breaks_index_witness :
    "B" ≠ "A" ∧
    ((menuEditTask (menuAddTask TaskManager.empty "A" 1 [("s", 2)]) "A" "B" 3).1.tasks =
      [⟨"B", 3, [⟨"s", 2⟩]⟩] ∧
    (menuEditTask (menuAddTask TaskManager.empty "A" 1 [("s", 2)]) "A" "B" 3).1.adjacencyList "B" =
      none ∧
    (menuEditTask (menuAddTask TaskManager.empty "A" 1 [("s", 2)]) "A" "B" 3).1.adjacencyList "A" =
      some ["s"]) :=
  ⟨by decide, rename_task_breaks_index "A" "B" "s" 1 3 2 (by decide)⟩

/-! ## Duplicate task names and menu option 6 -/

/-- C19: from the empty registry, menu option 1 twice gives two tasks both
named `n`, each owning a subtask named `s`, with `s` listed twice under `n`.
Menu option 6 (`findTask(n)` then `removeSubtask(s)`) then removes the subtask
from the first task only, yet removes every `s` under key `n`: the second task
still owns a subtask named `s` and the vector under `n` is empty. -/
theorem duplicate_names_remove_subtask (n s : String) (d1 d2 sd1 sd2 : Int) :
    (menuAddTask (menuAddTask TaskManager.empty n d1 [(s, sd1)]) n d2 [(s, sd2)]).tasks =
      [⟨n, d1, [⟨s, sd1⟩]⟩, ⟨n, d2, [⟨s, sd2⟩]⟩] ∧
    (menuAddTask (menuAddTask TaskManager.empty n d1 [(s, sd1)]) n d2
      [(s, sd2)]).adjacencyList n = some [s, s] ∧
    (menuRemoveSubtask
      (menuAddTask (menuAddTask TaskManager.empty n d1 [(s, sd1)]) n d2 [(s, sd2)]) n s).2 =
      "Subtask removed successfully.\n" ∧
    (menuRemoveSubtask
      (menuAddTask (menuAddTask TaskManager.empty n d1 [(s, sd1)]) n d2 [(s, sd2)]) n s).1.tasks =
      [⟨n, d1, []⟩, ⟨n, d2, [⟨s, sd2⟩]⟩] ∧
    (menuRemoveSubtask
      (menuAddTask (menuAddTask TaskManager.empty n d1 [(s, sd1)]) n d2
        [(s, sd2)]) n s).1.adjacencyList n = some [] := by
  have htasks : (menuAddTask (menuAddTask TaskManager.empty n d1 [(s, sd1)]) n d2
      [(s, sd2)]).tasks = [⟨n, d1, [⟨s, sd1⟩]⟩, ⟨n, d2, [⟨s, sd2⟩]⟩] := by
    simp [menuAddTask_tasks, TaskManager.empty]
  have hadj : ∀ k, (menuAddTask (menuAddTask TaskManager.empty n d1 [(s, sd1)]) n d2
      [(s, sd2)]).adjacencyList k = if k = n then some [s, s] else none := by
    intro k
    by_cases hk : k = n <;>
      simp [menuAddTask_adjacencyList, TaskManager.empty, AdjacencyList.subscript, hk]
  have hit : (menuAddTask (menuAddTask TaskManager.empty n d1 [(s, sd1)]) n d2
      [(s, sd2)]).findTaskIt n = 0 := by
    unfold TaskManager.findTaskIt
    rw [htasks]
    simp [find_if]
  have hfind : (menuAddTask (menuAddTask TaskManager.empty n d1 [(s, sd1)]) n d2
      [(s, sd2)]).findTask n = some ⟨n, d1, [⟨s, sd1⟩]⟩ := by
    unfold TaskManager.findTask
    simp only [hit]
    rw [htasks]
    simp
  refine ⟨htasks, by simp [hadj], ?_, ?_, ?_⟩
  all_goals
    simp only [menuRemoveSubtask, hfind, hit, TaskManager.removeSubtaskAt, htasks]
    simp [Task.removeSubtask, remove_if, Subtask.getName, TaskManager.removeEdge,
      AdjacencyList.assign, AdjacencyList.subscript, hadj, htasks]

/-! ## Renaming a subtask -/

/-- C18: let the task at position `it` own, at position `jt`, a subtask `x`
whose name is listed under the task's name in the relation index.  After
`Subtask::edit` renames it to a different name `s2`, the relation index is
unchanged and still lists the old name under the task's name; a subsequent
`removeSubtask(s2)` on that task takes the removal branch, leaves the task
without any subtask named `s2`, and the old name is still listed under the
task's name. -/
theorem rename_subtask_leaves_stale_edge (m : TaskManager) (it jt : Nat) (t : Task) (x : Subtask) (s2 : String) (d2 : Int)
    (ht : m.tasks[it]? = some t) (hx : t.subtasks[jt]? = some x)
    (hedge : x.name ∈ m.adjacencyList.subscript t.name) (hne : s2 ≠ x.name) :
    (m.editSubtaskAt it jt s2 d2).adjacencyList = m.adjacencyList ∧
    (m.editSubtaskAt it jt s2 d2).tasks[it]? =
      some { t with subtasks := t.subtasks.set jt ⟨s2, d2⟩ } ∧
    x.name ∈ (m.editSubtaskAt it jt s2 d2).adjacencyList.subscript t.name ∧
    ((m.editSubtaskAt it jt s2 d2).removeSubtaskAt it s2).2 =
      "Subtask removed successfully.\n" ∧
    (∃ t2, ((m.editSubtaskAt it jt s2 d2).removeSubtaskAt it s2).1.tasks[it]? = some t2 ∧
      t2.name = t.name ∧ ∀ y ∈ t2.subtasks, y.name ≠ s2) ∧
    x.name ∈
      ((m.editSubtaskAt it jt s2 d2).removeSubtaskAt it s2).1.adjacencyList.subscript t.name := by
  obtain ⟨hit, -⟩ := List.getElem?_eq_some.1 ht
  obtain ⟨hjt, -⟩ := List.getElem?_eq_some.1 hx
  have hedit : m.editSubtaskAt it jt s2 d2 =
      { m with tasks := m.tasks.set it { t with subtasks := t.subtasks.set jt ⟨s2, d2⟩ } } := by
    simp [TaskManager.editSubtaskAt, ht, hx, Subtask.edit]
  have hget : (m.tasks.set it { t with subtasks := t.subtasks.set jt ⟨s2, d2⟩ })[it]? =
      some { t with subtasks := t.subtasks.set jt ⟨s2, d2⟩ } := by
    simp [List.getElem?_set, hit]
  have hmem : (⟨s2, d2⟩ : Subtask) ∈ t.subtasks.set jt ⟨s2, d2⟩ := by
    rw [List.mem_iff_getElem]
    exact ⟨jt, by simpa using hjt, by simp⟩
  have hlen : (remove_if (fun y : Subtask => y.getName == s2)
      (t.subtasks.set jt ⟨s2, d2⟩)).length ≠ (t.subtasks.set jt ⟨s2, d2⟩).length := by
    intro hc
    have := (remove_if_length_eq_iff _ _).1 hc _ hmem
    simp [Subtask.getName] at this
  have hkeep : x.name ∈ remove_if (fun d => d == s2) (m.adjacencyList.subscript t.name) := by
    rw [mem_remove_if]
    exact ⟨hedge, by simpa using fun h => hne h.symm⟩
  rw [hedit]
  refine ⟨rfl, hget, hedge, ?_, ?_, ?_⟩
  · simp only [TaskManager.removeSubtaskAt, hget, Task.removeSubtask, hlen, ne_eq,
      not_false_eq_true, if_true]
  · simp only [TaskManager.removeSubtaskAt, hget, Task.removeSubtask, hlen, ne_eq,
      not_false_eq_true, if_true]
    refine ⟨⟨t.name, t.duration,
      remove_if (fun y : Subtask => y.getName == s2) (t.subtasks.set jt ⟨s2, d2⟩)⟩, ?_, rfl, ?_⟩
    · simp [TaskManager.removeEdge, List.getElem?_set, hit]
    · intro y hy
      have := ((mem_remove_if _ _ y).1 hy).2
      simpa [Subtask.getName] using this
  · simp only [TaskManager.removeSubtaskAt, hget, Task.removeSubtask, hlen, ne_eq,
      not_false_eq_true, if_true]
    simpa [TaskManager.removeEdge, AdjacencyList.assign, AdjacencyList.subscript] using hkeep

theorem rename_subtask_leaves_stale_edge_witness :
    sampleManager.tasks[1]? = some sampleTask ∧
    sampleTask.subtasks[0]? = some ⟨"s", 1⟩ ∧
    "s" ∈ sampleManager.adjacencyList.subscript sampleTask.name ∧
    "z" ≠ "s" ∧
    ((sampleManager.editSubtaskAt 1 0 "z" 9).adjacencyList = sampleManager.adjacencyList ∧
    (sampleManager.editSubtaskAt 1 0 "z" 9).tasks[1]? =
      some { sampleTask with subtasks := sampleTask.subtasks.set 0 ⟨"z", 9⟩ } ∧
    "s" ∈ (sampleManager.editSubtaskAt 1 0 "z" 9).adjacencyList.subscript sampleTask.name ∧
    ((sampleManager.editSubtaskAt 1 0 "z" 9).removeSubtaskAt 1 "z").2 =
      "Subtask removed successfully.\n" ∧
    (∃ t2, ((sampleManager.editSubtaskAt 1 0 "z" 9).removeSubtaskAt 1 "z").1.tasks[1]? = some t2 ∧
      t2.name = sampleTask.name ∧ ∀ y ∈ t2.subtasks, y.name ≠ "z") ∧
    "s" ∈
      ((sampleManager.editSubtaskAt 1 0 "z" 9).removeSubtaskAt 1 "z").1.adjacencyList.subscript
        sampleTask.name) :=
  ⟨rfl, rfl, by decide, by decide,
    rename_subtask_leaves_stale_edge sampleManager 1 0 sampleTask ⟨"s", 1⟩ "z" 9 rfl rfl
      (by decide) (by decide)⟩

/-! ## Soundness of the relation index without edits -/

theorem mem_subscript_iff (a : AdjacencyList) (n s : String) :
    s ∈ a.subscript n ↔ ∃ v, a n = some v ∧ s ∈ v := by
  unfold AdjacencyList.subscript
  cases a n <;> simp

theorem mem_set_or_getElem {α : Type} (l : List α) (i : Nat) (a t : α) (ht : t ∈ l) :
    t ∈ l.set i a ∨ l[i]? = some t := by
  obtain ⟨j, hj, rfl⟩ := List.mem_iff_getElem.1 ht
  by_cases hij : i = j
  · right
    subst hij
    exact List.getElem?_eq_getElem hj
  · left
    rw [List.mem_iff_getElem]
    exact ⟨j, by simpa using hj, List.getElem_set_ne hij _⟩

theorem mem_set_of_getElem {α : Type} (l : List α) (i : Nat) (a t : α) (h : l[i]? = some t) :
    a ∈ l.set i a := by
  obtain ⟨hi, -⟩ := List.getElem?_eq_some.1 h
  rw [List.mem_iff_getElem]
  exact ⟨i, by simpa using hi, by simp⟩

theorem set_eq_self_of_getElem {α : Type} (l : List α) (i : Nat) (a : α) (h : l[i]? = some a) :
    l.set i a = l := by
  apply List.ext_getElem?
  intro j
  rw [List.getElem?_set]
  by_cases hij : i = j
  · subst hij
    obtain ⟨hi, -⟩ := List.getElem?_eq_some.1 h
    simp [hi, h]
  · simp [hij]

theorem indexSound_empty : IndexSound TaskManager.empty := by
  intro n v hv
  simp [TaskManager.empty] at hv

theorem indexSound_menuAddTask (m : TaskManager) (name : String) (d : Int)
    (inputs : List (String × Int)) (h : IndexSound m) :
    IndexSound (menuAddTask m name d inputs) := by
  intro n v hv s hs
  rw [menuAddTask_adjacencyList] at hv
  rw [menuAddTask_tasks]
  have hold : (∃ w, m.adjacencyList n = some w ∧ s ∈ w) →
      ∃ t ∈ m.tasks ++ [⟨name, d, inputs.map (fun p => ⟨p.1, p.2⟩)⟩],
        t.name = n ∧ ∃ x ∈ t.subtasks, x.name = s := by
    rintro ⟨w, hw, hsw⟩
    obtain ⟨t, ht, hn, hx⟩ := h n w hw s hsw
    exact ⟨t, List.mem_append_left _ ht, hn, hx⟩
  by_cases hc : n = name ∧ inputs ≠ []
  · rw [if_pos hc] at hv
    cases hv
    rcases List.mem_append.1 hs with hs1 | hs2
    · exact hold ((mem_subscript_iff _ _ _).1 hs1)
    · obtain ⟨p, hp, rfl⟩ := List.mem_map.1 hs2
      refine ⟨⟨name, d, inputs.map (fun p => ⟨p.1, p.2⟩)⟩, by simp, hc.1.symm, ⟨p.1, p.2⟩,
        List.mem_map_of_mem _ hp, rfl⟩
  · rw [if_neg hc] at hv
    exact hold ⟨v, hv, hs⟩

theorem indexSound_removeTask (m : TaskManager) (n0 : String) (h : IndexSound m) :
    IndexSound (m.removeTask n0).1 := by
  unfold TaskManager.removeTask
  by_cases hlen : (remove_if (fun task => task.name == n0) m.tasks).length = m.tasks.length
  · simpa only [hlen, ne_eq, not_true_eq_false, if_false] using h
  · simp only [hlen, ne_eq, not_false_eq_true, if_true]
    intro n v hv s hs
    have hn : n ≠ n0 := by
      intro hc
      simp [AdjacencyList.erase, hc] at hv
    have hv2 : m.adjacencyList n = some v := by
      simpa [AdjacencyList.erase, hn] using hv
    obtain ⟨t, ht, htn, hx⟩ := h n v hv2 s hs
    refine ⟨t, ?_, htn, hx⟩
    show t ∈ remove_if (fun task => task.name == n0) m.tasks
    rw [mem_remove_if]
    exact ⟨ht, by simpa [htn] using hn⟩

theorem indexSound_removeSubtaskAt (m : TaskManager) (it : Nat) (s0 : String)
    (h : IndexSound m) : IndexSound (m.removeSubtaskAt it s0).1 := by
  unfold TaskManager.removeSubtaskAt
  cases htask : m.tasks[it]? with
  | none => simpa using h
  | some task =>
    simp only [Task.removeSubtask]
    by_cases hlen : (remove_if (fun x => x.getName == s0) task.subtasks).length =
        task.subtasks.length
    · simp only [hlen, ne_eq, not_true_eq_false, if_false]
      rw [set_eq_self_of_getElem _ _ _ htask]
      exact h
    · simp only [hlen, ne_eq, not_false_eq_true, if_true]
      intro n v hv s hs
      simp only [TaskManager.removeEdge, AdjacencyList.assign] at hv
      simp only [TaskManager.removeEdge]
      by_cases hn : n = task.name
      · rw [if_pos hn] at hv
        cases hv
        obtain ⟨hs1, hs2⟩ := (mem_remove_if _ _ s).1 hs
        have hss : s ≠ s0 := by simpa using hs2
        obtain ⟨w, hw, hsw⟩ := (mem_subscript_iff _ _ _).1 hs1
        obtain ⟨t, ht, htn, x, hx, hxs⟩ := h task.name w hw s hsw
        rcases mem_set_or_getElem m.tasks it
            { task with subtasks := remove_if (fun x => x.getName == s0) task.subtasks }
            t ht with hin | heq
        · exact ⟨t, hin, htn.trans hn.symm, x, hx, hxs⟩
        · have hte : task = t := Option.some.inj (htask.symm.trans heq)
          subst hte
          refine ⟨_, mem_set_of_getElem _ _ _ _ htask, hn.symm, x, ?_, hxs⟩
          show x ∈ remove_if (fun x => x.getName == s0) task.subtasks
          rw [mem_remove_if]
          exact ⟨hx, by simpa [Subtask.getName, hxs] using hss⟩
      · rw [if_neg hn] at hv
        obtain ⟨t, ht, htn, hx⟩ := h n v hv s hs
        rcases mem_set_or_getElem m.tasks it
            { task with subtasks := remove_if (fun x => x.getName == s0) task.subtasks }
            t ht with hin | heq
        · exact ⟨t, hin, htn, hx⟩
        · have hte : task = t := Option.some.inj (htask.symm.trans heq)
          exact absurd (hte ▸ htn).symm hn

theorem indexSound_menuRemoveSubtask (m : TaskManager) (n0 s0 : String) (h : IndexSound m) :
    IndexSound (menuRemoveSubtask m n0 s0).1 := by
  unfold menuRemoveSubtask
  cases m.findTask n0 with
  | none => exact h
  | some task => exact indexSound_removeSubtaskAt m _ s0 h

theorem indexSound_run (commands : List Command) (m : TaskManager) (h : IndexSound m)
    (hno : ∀ c ∈ commands, c.isEdit = false) : IndexSound (run m commands) := by
  induction commands generalizing m with
  | nil => exact h
  | cons c cs ih =>
    have hc : c.isEdit = false := hno c (List.mem_cons_self _ _)
    have hcs : ∀ c ∈ cs, c.isEdit = false := fun c hmem => hno c (List.mem_cons_of_mem _ hmem)
    show IndexSound (run (step m c) cs)
    apply ih _ _ hcs
    cases c with
    | addTask name duration subtaskInputs => exact indexSound_menuAddTask m _ _ _ h
    | editTask _ _ _ => simp [Command.isEdit] at hc
    | editSubtask _ _ _ _ => simp [Command.isEdit] at hc
    | removeTask taskName => exact indexSound_removeTask m _ h
    | removeSubtask taskName subtaskName => exact indexSound_menuRemoveSubtask m _ _ h

/-- C17: in every state reached from the empty registry by commands of menu
options 1, 5 and 6 only, every destination listed under a key of the relation
index is the name of a subtask owned by some task of the registry named as the
key. -/
theorem index_sound_without_edits (commands : List Command)
    (hno : ∀ c ∈ commands, c.isEdit = false) :
    IndexSound (run TaskManager.empty commands) :=
  indexSound_run commands TaskManager.empty indexSound_empty hno

theorem index_sound_without_edits_witness :
    (∀ c ∈ sampleCommands, c.isEdit = false) ∧
    IndexSound (run TaskManager.empty sampleCommands) :=
  ⟨by decide, index_sound_without_edits sampleCommands (by decide)⟩

end TaskOrganizer
